import Mathlib

set_option maxRecDepth 100000

/-!
Shallow embedding of the ydatabase bitcask-style storage engine
(src/src/data/log_record.rs, src/src/data/data_file.rs, src/src/db.rs,
src/src/batch.rs, src/src/merge.rs) and proofs about its claims.

Bytes are modelled as `Nat` values; wherever the Rust code relies on the
`u8`/`u32` machine-integer width, an explicit `% 256` / `% 2^32` appears.
Files are byte lists; `read_at` semantics (short read at EOF, zero-filled
buffer) are modelled by `readAt`.  Rust panics (`unwrap` on `None`,
`LogRecodType::from_u8` on an unknown tag) are modelled by the error value
`Errors.ModelPanic`.
-/

namespace YDB

/-- Record types; discriminants 1,2,3 as in `log_record.rs`. -/
inductive LogRecodType where
  | NORMAL
  | DELETED
  | TXNFINSHED
deriving DecidableEq, Repr

/-- The `u8` discriminant written for a record type (`rec_type as u8`). -/
def LogRecodType.toU8 : LogRecodType → Nat
  | .NORMAL => 1
  | .DELETED => 2
  | .TXNFINSHED => 3

/-- `LogRecodType::from_u8`; the `_ => panic!` arm of the source becomes `none`. -/
def LogRecodType.fromU8 (v : Nat) : Option LogRecodType :=
  if v = 1 then some .NORMAL
  else if v = 2 then some .DELETED
  else if v = 3 then some .TXNFINSHED
  else none

/-- A log record: key bytes, value bytes and a type (`log_record.rs`). -/
structure LogRecord where
  key : List Nat
  value : List Nat
  rec_type : LogRecodType
deriving DecidableEq, Repr

/-- LEB128 encoding worker, structurally recursive on a byte budget.
A `u64` varint takes at most 10 bytes, so a budget of 10 is exact for every
`usize` value prost can be given; the budget-0 fallback is unreachable for
such values. -/
def encodeVarintAux : Nat → Nat → List Nat
  | 0, n => [n % 128]
  | fuel + 1, n =>
    if n < 128 then [n]
    else (n % 128 + 128) :: encodeVarintAux fuel (n / 128)

/-- LEB128 variable-length encoding of a natural number, as produced by
prost's `encode_length_delimiter` on a `usize` (hence the 10-byte budget). -/
def encodeVarint (n : Nat) : List Nat := encodeVarintAux 10 n

/-- Number of bytes of the varint encoding (prost `length_delimiter_len`). -/
def varintLen (n : Nat) : Nat := (encodeVarint n).length

/-- LEB128 decoding from the front of a byte list, returning the decoded
value and the number of bytes consumed (prost `decode_length_delimiter`);
`none` models the decode error (truncated varint) that the source
`unwrap`s on. -/
def decodeVarint : List Nat → Option (Nat × Nat)
  | [] => none
  | b :: rest =>
    if b < 128 then some (b, 1)
    else
      match decodeVarint rest with
      | some (v, k) => some (b % 128 + 128 * v, k + 1)
      | none => none

/-- One bit step of the reflected CRC-32 (IEEE polynomial), as computed by
the `crc32fast` crate. -/
def crc32step (c : Nat) : Nat :=
  if c % 2 = 1 then (c / 2) ^^^ 0xEDB88320 else c / 2

/-- Eight bit steps of the reflected CRC-32. -/
def crc32round8 (c : Nat) : Nat :=
  crc32step (crc32step (crc32step (crc32step
    (crc32step (crc32step (crc32step (crc32step c)))))))

/-- CRC-32 (IEEE, reflected) of a byte list, as `crc32fast::Hasher` computes
it; `% 256` models the `u8` width of each input byte. -/
def crc32 (bs : List Nat) : Nat :=
  (bs.foldl (fun c b => crc32round8 (c ^^^ b % 256)) 0xFFFFFFFF) ^^^ 0xFFFFFFFF

/-- Big-endian 4-byte serialization of a `u32` (`BufMut::put_u32`). -/
def putU32BE (n : Nat) : List Nat :=
  [n / 2 ^ 24 % 256, n / 2 ^ 16 % 256, n / 2 ^ 8 % 256, n % 256]

/-- Big-endian read of a `u32` from the first four bytes (`Buf::get_u32`). -/
def getU32BE (l : List Nat) : Nat :=
  ((l.headD 0 % 256 * 256 + l.tail.headD 0 % 256) * 256 +
      l.tail.tail.headD 0 % 256) * 256 +
    l.tail.tail.tail.headD 0 % 256

/-- The bytes of an encoded record that precede the CRC:
type byte, varint key length, varint value length, key, value
(`LogRecord::encode_and_get_crc` before `put_u32`). -/
def encodedBody (r : LogRecord) : List Nat :=
  r.rec_type.toU8 ::
    (encodeVarint r.key.length ++ (encodeVarint r.value.length ++ (r.key ++ r.value)))

/-- The CRC value computed over the encoded body (`LogRecord::get_crc`). -/
def LogRecord.get_crc (r : LogRecord) : Nat := crc32 (encodedBody r)

/-- `LogRecord::encode`: body followed by the big-endian CRC-32. -/
def LogRecord.encode (r : LogRecord) : List Nat :=
  encodedBody r ++ putU32BE (crc32 (encodedBody r))

/-- `encoded_length` of `log_record.rs`. -/
def LogRecord.encoded_length (r : LogRecord) : Nat :=
  1 + varintLen r.key.length + varintLen r.value.length + r.key.length + r.value.length + 4

/-- `max_log_record_header_size` exactly as the source computes it:
`size_of::<u8>() + length_delimiter_len(u32::MAX as usize)`. -/
def max_log_record_header_size : Nat := 1 + varintLen (2 ^ 32 - 1)

/-- The error kinds of `errors.rs`, together with the variants that
`db.rs`/`merge.rs` use but that are missing from the (stale) `errors.rs` in
the source tree (`DataBaseIsUsing`, `CanNotMerge`, `NoEnoughDiskCapacity`),
and `ModelPanic`, which models a Rust panic (`unwrap` on `None`,
`from_u8` on an unknown tag). -/
inductive Errors where
  | FileReadError
  | FileWriteError
  | FileSyncError
  | FileOpenError
  | KeyIsEmpty
  | IndexUpdateFailed
  | KeyIsNotExist
  | DataFileNotFound
  | DirIsNotExist
  | DataFileIsEmpty
  | FailToCreateDatabaseDir
  | FailToReadDatabasedir
  | DataDirectoryCorruped
  | ReadDataFileEOF
  | WrongLogRecordCrc
  | EmptyKeyError
  | ExceedMaxBatchNum
  | MergingIsProgressing
  | CanNotUseWriteBatch
  | DataBaseIsUsing
  | CanNotMerge
  | NoEnoughDiskCapacity
  | ModelPanic
deriving DecidableEq, Repr

instance {ε α : Type} [DecidableEq ε] [DecidableEq α] : DecidableEq (Except ε α) := fun x y =>
  match x, y with
  | .error a, .error b =>
    if h : a = b then .isTrue (by rw [h]) else .isFalse (fun he => h (by injection he))
  | .error _, .ok _ => .isFalse (fun he => Except.noConfusion he)
  | .ok _, .error _ => .isFalse (fun he => Except.noConfusion he)
  | .ok a, .ok b =>
    if h : a = b then .isTrue (by rw [h]) else .isFalse (fun he => h (by injection he))

/-- `read_at` semantics of `FileIO::read` (plus the zeroed buffer the caller
allocates): copy the available bytes at `off`, the rest of the `len`-byte
buffer stays zero.  Reads past end-of-file succeed and return zeros. -/
def readAt (file : List Nat) (off len : Nat) : List Nat :=
  let r := (file.drop off).take len
  r ++ List.replicate (len - r.length) 0

/-- `DataFile::read_log_record` on a file (byte list) at an offset:
read a `max_log_record_header_size`-byte header, parse type byte and the two
length varints, apply the EOF heuristic (`key_size == 0 && value_size != 0`),
read key+value+CRC, rebuild the record and check the CRC.
Returns the record and its encoded size. -/
def read_log_record (file : List Nat) (offset : Nat) : Except Errors (LogRecord × Nat) :=
  let header := readAt file offset max_log_record_header_size
  let t := header.headD 0
  match decodeVarint header.tail with
  | none => .error .ModelPanic
  | some (key_size, k1) =>
    match decodeVarint (header.tail.drop k1) with
    | none => .error .ModelPanic
    | some (value_size, _) =>
      if key_size = 0 ∧ value_size ≠ 0 then .error .ReadDataFileEOF
      else
        let actual_header_size := 1 + varintLen key_size + varintLen value_size
        let kv := readAt file (offset + actual_header_size) (key_size + value_size + 4)
        match LogRecodType.fromU8 t with
        | none => .error .ModelPanic
        | some rt =>
          let record : LogRecord :=
            { key := kv.take key_size
              value := (kv.drop key_size).take value_size
              rec_type := rt }
          if getU32BE (kv.drop (key_size + value_size)) ≠ record.get_crc then
            .error .WrongLogRecordCrc
          else
            .ok (record, actual_header_size + key_size + value_size + 4)

example : max_log_record_header_size = 6 := by decide

example :
    LogRecord.get_crc ⟨[110, 97, 109, 101], [98, 105, 116, 99, 97, 115, 107, 45, 114, 115],
      .NORMAL⟩ = 1020360578 := by decide

example : LogRecord.get_crc ⟨[110, 97, 109, 101], [], .NORMAL⟩ = 3756865478 := by decide

example :
    read_log_record (LogRecord.encode ⟨[110, 97], [98, 99], .NORMAL⟩) 0 =
      .ok (⟨[110, 97], [98, 99], .NORMAL⟩, 11) := by decide

/-- A record position: file id, byte offset and encoded size.  The `size`
field is absent from the (stale) `LogRecodPos` in `log_record.rs` but is
constructed and consumed throughout `db.rs` (`append_log_record`,
`reclaim_size` accounting) and specified in §3 of the spec
(`RecordPosition = { file_id, offset, size }`). -/
structure LogRecodPos where
  file_id : Nat
  offset : Nat
  size : Nat
deriving DecidableEq, Repr

/-- Association-list lookup with map semantics (first binding wins),
modelling `BTreeMap::get` / `HashMap::get`. -/
def lookupA {K V : Type} [DecidableEq K] : List (K × V) → K → Option V
  | [], _ => none
  | (k', v) :: t, k => if k' = k then some v else lookupA t k

/-- Remove every binding of a key, modelling `BTreeMap::remove`. -/
def eraseA {K V : Type} [DecidableEq K] (l : List (K × V)) (k : K) : List (K × V) :=
  l.filter (fun p => ¬ p.1 = k)

/-- Insert a binding, modelling `BTreeMap::insert` (overwrite). -/
def insertA {K V : Type} [DecidableEq K] (l : List (K × V)) (k : K) (v : V) : List (K × V) :=
  (k, v) :: eraseA l k

/-- One data file: id, append offset (`write_off`) and on-disk bytes
(`data_file.rs`).  `DataFile::new` yields `write_off = 0` even over an
existing file; the byte list is the file's on-disk content. -/
structure DataFileM where
  file_id : Nat
  write_off : Nat
  content : List Nat
deriving DecidableEq, Repr

/-- The engine options that the modelled operations consult
(`options.rs`; directory path, mmap flag and index type are handled at the
call sites that need them). -/
structure Options where
  data_file_size : Nat
  sync_writes : Bool
  bytes_per_sync : Nat
deriving DecidableEq, Repr

/-- `IndexType` of `options.rs`. -/
inductive IndexType where
  | BTree
  | SkipList
  | BPlusTree
deriving DecidableEq, Repr

/-- The mutable state of an `Engine` (`db.rs`): active file, sealed older
files keyed by id, the in-memory key directory, and the atomic counters. -/
structure EngineState where
  active : DataFileM
  older : List (Nat × DataFileM)
  index : List (List Nat × LogRecodPos)
  seq_no : Nat
  reclaim_size : Nat
  bytes_write : Nat
deriving DecidableEq, Repr

/-- A brand new engine over an empty directory: active file 0
(`INITIAL_FILE_ID`), empty index, `seq_no` starts at 1. -/
def freshEngine : EngineState :=
  { active := ⟨0, 0, []⟩, older := [], index := [], seq_no := 1,
    reclaim_size := 0, bytes_write := 0 }

/-- `NON_TRANSACTION_SEQ_NO` of `batch.rs`. -/
def NON_TRANSACTION_SEQ_NO : Nat := 0

/-- `log_record_with_seq`: prefix a key with the varint-encoded sequence
number. -/
def log_record_with_seq (key : List Nat) (seq : Nat) : List Nat :=
  encodeVarint seq ++ key

/-- `parse_log_record_key`: split a stored key into the real key and its
sequence number; `none` models the `unwrap` panic on a malformed varint. -/
def parse_log_record_key (key : List Nat) : Option (List Nat × Nat) :=
  match decodeVarint key with
  | some (seq, k) => some (key.drop k, seq)
  | none => none

namespace Engine

/-- `Engine::append_log_record`: rotate the active file when the record
would overflow `data_file_size` (fsync, seal under its id, open id+1),
then append the encoded bytes and update the `bytes_write` /
periodic-fsync counter.  Returns the new state and the record position
(pre-write offset, encoded size). -/
def append_log_record (opt : Options) (s : EngineState) (rec : LogRecord) :
    EngineState × LogRecodPos :=
  let enc := rec.encode
  let s1 :=
    if s.active.write_off + enc.length > opt.data_file_size then
      { s with
        older := insertA s.older s.active.file_id ⟨s.active.file_id, 0, s.active.content⟩
        active := ⟨s.active.file_id + 1, 0, []⟩ }
    else s
  let write_off := s1.active.write_off
  let active' : DataFileM :=
    { s1.active with
      content := s1.active.content ++ enc
      write_off := s1.active.write_off + enc.length }
  let previous := s1.bytes_write
  let need_sync :=
    opt.sync_writes ||
      (decide (0 < opt.bytes_per_sync) && decide (opt.bytes_per_sync ≤ previous + enc.length))
  let s2 :=
    { s1 with
      active := active'
      bytes_write := if need_sync then 0 else previous + enc.length }
  (s2, ⟨active'.file_id, write_off, enc.length⟩)

/-- Content of the data file `fid` as `Engine::get` resolves it: the active
file when the id matches, otherwise the sealed-file map. -/
def fileContentAt (s : EngineState) (fid : Nat) : Option (List Nat) :=
  if fid = s.active.file_id then some s.active.content
  else (lookupA s.older fid).map (fun df => df.content)

/-- `Engine::put`: reject the empty key, append a NORMAL record whose key is
`varint(0) ++ key`, insert the position into the index, and count a
displaced old position as reclaimable. -/
def put (opt : Options) (s : EngineState) (key value : List Nat) :
    Except Errors EngineState :=
  if key = [] then .error .KeyIsEmpty
  else
    let rec1 : LogRecord := ⟨log_record_with_seq key NON_TRANSACTION_SEQ_NO, value, .NORMAL⟩
    let r := append_log_record opt s rec1
    let reclaimAdd :=
      match lookupA r.1.index key with
      | some old => old.size
      | none => 0
    .ok { r.1 with
          index := insertA r.1.index key r.2
          reclaim_size := r.1.reclaim_size + reclaimAdd }

/-- `Engine::get`: look up the directory, read the record from the active or
sealed file, reject DELETED records. -/
def get (s : EngineState) (key : List Nat) : Except Errors (List Nat) :=
  if key = [] then .error .KeyIsEmpty
  else
    match lookupA s.index key with
    | none => .error .KeyIsNotExist
    | some pos =>
      match fileContentAt s pos.file_id with
      | none => .error .DataFileNotFound
      | some content =>
        match read_log_record content pos.offset with
        | .error e => .error e
        | .ok (rec1, _) =>
          if rec1.rec_type = .DELETED then .error .KeyIsNotExist
          else .ok rec1.value

/-- `Engine::delete`: no-op for an unindexed key; otherwise append a DELETED
tombstone, then add the size of the position the index still holds
(`self.index.get(key).unwrap()`), remove the index entry and add the size
of the removed position as well. -/
def delete (opt : Options) (s : EngineState) (key : List Nat) :
    Except Errors EngineState :=
  if key = [] then .error .KeyIsEmpty
  else
    match lookupA s.index key with
    | none => .ok s
    | some _ =>
      let rec1 : LogRecord := ⟨log_record_with_seq key NON_TRANSACTION_SEQ_NO, [], .DELETED⟩
      let r := append_log_record opt s rec1
      match lookupA r.1.index key with
      | none => .error .ModelPanic
      | some pos2 =>
        let s2 := { r.1 with reclaim_size := r.1.reclaim_size + pos2.size }
        let reclaimAdd :=
          match lookupA s2.index key with
          | some old => old.size
          | none => 0
        .ok { s2 with
              index := eraseA s2.index key
              reclaim_size := s2.reclaim_size + reclaimAdd }

end Engine

/-- The active/older split that `Engine::open` performs on the loaded data
files (sorted ascending by id), exactly as coded in `db.rs` lines 92-102:
only when strictly more than two files exist does the loop run, and it pops
`len - 1` files from the END of the vector into the older map, leaving the
file with the SMALLEST id as the active file; with two files the first is
popped for no map at all; with none, a fresh file 0 is created. -/
def openSplit (files : List DataFileM) : List (Nat × DataFileM) × DataFileM :=
  if 2 < files.length then
    match files with
    | f :: rest => ((rest.reverse).map (fun g => (g.file_id, g)), f)
    | [] => ([], ⟨0, 0, []⟩)
  else
    match files.getLast? with
    | some f => ([], f)
    | none => ([], ⟨0, 0, []⟩)

/-- Insertion into a list sorted by file id (ascending). -/
def insertSorted (x : Nat × List Nat) : List (Nat × List Nat) → List (Nat × List Nat)
  | [] => [x]
  | y :: t => if x.1 ≤ y.1 then x :: y :: t else y :: insertSorted x t

/-- Sort a directory listing by file id ascending (`file_ids.sort()`). -/
def sortByFid (l : List (Nat × List Nat)) : List (Nat × List Nat) :=
  l.foldr insertSorted []

/-- `load_data_files` of `db.rs`: parse the `.data` files of a directory
listing (given here as id/content pairs), sort ids ascending and open each
file (`DataFile::new`, hence `write_off = 0`). -/
def load_data_files (dir : List (Nat × List Nat)) : List DataFileM :=
  (sortByFid dir).map (fun p => ⟨p.1, 0, p.2⟩)

/-- `Engine::open` for the in-memory index types (`BTree` / `SkipList`):
the files are loaded and split, the index is the freshly created empty one,
and — because both recovery blocks in `open` are guarded by
`index_type == BPlusTree` — no hint replay, no log replay, no sequence
number restore and no `set_write_off` happen for these index types. -/
def openEngineMem (dir : List (Nat × List Nat)) : EngineState :=
  let (older, active) := openSplit (load_data_files dir)
  { active := active, older := older, index := [], seq_no := 1,
    reclaim_size := 0, bytes_write := 0 }

/-- The `.data` files an engine state leaves on disk: every sealed file and
the active file. -/
def dirDataFiles (s : EngineState) : List (Nat × List Nat) :=
  (s.older.map (fun p => (p.1, p.2.content))) ++ [(s.active.file_id, s.active.content)]

/-- `WriteBatchOptions` of `options.rs`. -/
structure WriteBatchOptions where
  max_batch_num : Nat
  sync_writes : Bool
deriving DecidableEq, Repr

/-- `TXN_FIN_KEY = "txn-fin"` as bytes (`batch.rs`). -/
def TXN_FIN_KEY : List Nat := [116, 120, 110, 45, 102, 105, 110]

/-- `WriteBatch::commit` (`batch.rs` lines 72-112): empty buffer returns
`Ok` untouched; oversize buffer is rejected; otherwise `seq := seq_no++`
(fetch_add returns the previous value), every buffered record is appended
with its key prefixed by `varint(seq)` collecting positions, then one
TXN_FINISHED record is appended whose key is the PLAIN `TXN_FIN_KEY`
(the source does not prefix it), and finally the buffered records are
applied to the index.  The `positions.get(..).unwrap()` cannot fail because
every pending key was just inserted; that arm leaves the state unchanged. -/
def commit (opt : Options) (wopt : WriteBatchOptions) (s : EngineState)
    (pending : List (List Nat × LogRecord)) : Except Errors EngineState :=
  if pending.length = 0 then .ok s
  else if wopt.max_batch_num < pending.length then .error .ExceedMaxBatchNum
  else
    let seq := s.seq_no
    let s0 := { s with seq_no := s.seq_no + 1 }
    let step := fun (acc : EngineState × List (List Nat × LogRecodPos))
        (item : List Nat × LogRecord) =>
      let rec1 : LogRecord := ⟨log_record_with_seq item.2.key seq, item.2.value, item.2.rec_type⟩
      let r := Engine.append_log_record opt acc.1 rec1
      (r.1, insertA acc.2 item.2.key r.2)
    let s1p := pending.foldl step (s0, [])
    let fin : LogRecord := ⟨TXN_FIN_KEY, [], .TXNFINSHED⟩
    let s2 := (Engine.append_log_record opt s1p.1 fin).1
    let s3 := pending.foldl (fun acc item =>
        if item.2.rec_type = .NORMAL then
          match lookupA s1p.2 item.2.key with
          | some pos => { acc with index := insertA acc.index item.2.key pos }
          | none => acc
        else if item.2.rec_type = .DELETED then
          { acc with index := eraseA acc.index item.2.key }
        else acc) s2
    .ok s3

/-- The state that `Engine::load_index_from_data_files` threads through
replay: the index being rebuilt, the reclaimable-byte counter, the buffered
transactional records per sequence number, and the maximum sequence number
seen. -/
structure ReplayState where
  index : List (List Nat × LogRecodPos)
  reclaim : Nat
  txns : List (Nat × List (LogRecord × LogRecodPos))
  maxSeq : Nat
deriving DecidableEq, Repr

/-- `Engine::update_index` (`db.rs` lines 413-426): NORMAL puts and counts a
displaced position; DELETED removes, counting the tombstone plus any removed
position; TXN_FINISHED records fall through both branches. -/
def update_index (rs : ReplayState) (key : List Nat) (t : LogRecodType)
    (pos : LogRecodPos) : ReplayState :=
  if t = .NORMAL then
    match lookupA rs.index key with
    | some old =>
      { rs with index := insertA rs.index key pos, reclaim := rs.reclaim + old.size }
    | none => { rs with index := insertA rs.index key pos }
  else if t = .DELETED then
    let extra :=
      match lookupA rs.index key with
      | some old => old.size
      | none => 0
    { rs with index := eraseA rs.index key, reclaim := rs.reclaim + (pos.size + extra) }
  else rs

/-- The per-file replay loop of `Engine::load_index_from_data_files`
(`db.rs` lines 348-406), fuel-bounded for termination (every successful
decode advances the offset by at least seven bytes, so `length + 1` fuel
can never run out; exhaustion is mapped to `ModelPanic`).  `ReadDataFileEOF`
ends the loop normally; `transaction_records.get(&seq).unwrap()` on a
missing sequence number is the modelled panic. -/
def replayLoop (fid : Nat) (file : List Nat) :
    Nat → Nat → ReplayState → Except Errors ReplayState
  | 0, _, _ => .error .ModelPanic
  | fuel + 1, offset, rs =>
    match read_log_record file offset with
    | .error e => if e = .ReadDataFileEOF then .ok rs else .error e
    | .ok (rec1, size) =>
      let pos : LogRecodPos := ⟨fid, offset, size⟩
      match parse_log_record_key rec1.key with
      | none => .error .ModelPanic
      | some (realKey, seq) =>
        let next := fun (rs' : ReplayState) =>
          replayLoop fid file fuel (offset + size)
            { rs' with maxSeq := if rs'.maxSeq < seq then seq else rs'.maxSeq }
        if seq = NON_TRANSACTION_SEQ_NO then
          next (update_index rs realKey rec1.rec_type pos)
        else if rec1.rec_type = .TXNFINSHED then
          match lookupA rs.txns seq with
          | none => .error .ModelPanic
          | some records =>
            let rs' := records.foldl
              (fun acc tr => update_index acc tr.1.key tr.1.rec_type tr.2) rs
            next { rs' with txns := eraseA rs'.txns seq }
        else
          let buffered := ((lookupA rs.txns seq).getD []) ++
            [({ rec1 with key := realKey }, pos)]
          next { rs with txns := insertA rs.txns seq buffered }

/-- Replay every data file in ascending id order, skipping ids below the
merge watermark when a merge-finished marker was found.  The source's
`if i == self.file_ids.len()` offset restore is dead code (`i` is
0-based and `< len`), so it has no model here. -/
def replayFiles (hasMerged : Bool) (nonMergedFid : Nat) :
    List (Nat × List Nat) → ReplayState → Except Errors ReplayState
  | [], rs => .ok rs
  | (fid, content) :: rest, rs =>
    if hasMerged ∧ fid < nonMergedFid then replayFiles hasMerged nonMergedFid rest rs
    else
      match replayLoop fid content (content.length + 1) 0 rs with
      | .ok rs' => replayFiles hasMerged nonMergedFid rest rs'
      | .error e => .error e

/-- `Engine::load_index_from_data_files` over a directory (id/content pairs,
ids ascending) with no merge-finished marker present. -/
def load_index_from_data_files (files : List (Nat × List Nat)) :
    Except Errors ReplayState :=
  replayFiles false 0 files ⟨[], 0, [], 0⟩

/-- `u64` wrapping subtraction (for arguments below `2^64`), the semantics
of `total_size - reclaim_size as u64` in release builds. -/
def sub64 (a b : Nat) : Nat := (a + 2 ^ 64 - b) % 2 ^ 64

/-- The guard sequence of `Engine::merge` (`merge.rs` lines 16-37).
`isEmpty` is `is_empty_engine`, `lockAcquired` the `merging_lock.try_lock`
outcome, and `ratioOk` the `f32` comparison
`reclaim as f32 / total as f32 >= data_file_merge_ratio` (floating-point,
taken here as an oracle input).  Returns `ok false` for the empty-engine
early exit and `ok true` when all guards pass and the merge proceeds. -/
def mergePrecheck (isEmpty lockAcquired ratioOk : Bool)
    (total reclaim avail : Nat) : Except Errors Bool :=
  if isEmpty then .ok false
  else if !lockAcquired then .error .MergingIsProgressing
  else if !ratioOk then .error .CanNotMerge
  else if avail ≤ sub64 total reclaim then .error .NoEnoughDiskCapacity
  else .ok true

/-! ### Varint lemmas -/

theorem encodeVarintAux_length_pos (fuel n : Nat) : 0 < (encodeVarintAux fuel n).length := by
  cases fuel with
  | zero => simp [encodeVarintAux]
  | succ fuel =>
    rw [encodeVarintAux]
    split <;> simp

theorem decodeVarint_encodeVarintAux (fuel : Nat) :
    ∀ n s, n < 128 ^ fuel →
      decodeVarint (encodeVarintAux fuel n ++ s) =
        some (n, (encodeVarintAux fuel n).length) := by
  induction fuel with
  | zero =>
    intro n s h
    have hn : n = 0 := by omega
    subst hn
    simp [encodeVarintAux, decodeVarint]
  | succ fuel ih =>
    intro n s h
    rw [encodeVarintAux]
    by_cases h128 : n < 128
    · simp [h128, decodeVarint]
    · have hdiv : n / 128 < 128 ^ fuel := by
        rw [Nat.div_lt_iff_lt_mul (by omega)]
        calc n < 128 ^ (fuel + 1) := h
        _ = 128 ^ fuel * 128 := by ring
      simp only [h128, if_false, List.cons_append, decodeVarint]
      have hb : ¬ (n % 128 + 128 < 128) := by omega
      rw [if_neg hb, ih (n / 128) s hdiv]
      have hmod : (n % 128 + 128) % 128 = n % 128 := by omega
      simp [hmod, Nat.mod_add_div, List.length_cons]

theorem encodeVarintAux_small (fuel : Nat) :
    ∀ n k, (encodeVarintAux fuel n).length ≤ k → k ≤ fuel → n < 128 ^ k := by
  induction fuel with
  | zero =>
    intro n k hlen hk
    have := encodeVarintAux_length_pos 0 n
    omega
  | succ fuel ih =>
    intro n k hlen hk
    rw [encodeVarintAux] at hlen
    by_cases h128 : n < 128
    · have hk1 : 1 ≤ k := by simpa [h128] using hlen
      calc n < 128 := h128
      _ = 128 ^ 1 := by norm_num
      _ ≤ 128 ^ k := Nat.pow_le_pow_right (by norm_num) hk1
    · simp only [h128, if_false, List.length_cons] at hlen
      have hk1 : 1 ≤ k := by
        have := encodeVarintAux_length_pos fuel (n / 128)
        omega
      have hrec : n / 128 < 128 ^ (k - 1) :=
        ih (n / 128) (k - 1) (by omega) (by omega)
      have : n < 128 ^ (k - 1) * 128 := by
        have hne : n = 128 * (n / 128) + n % 128 := (Nat.div_add_mod n 128).symm
        have hm : n % 128 < 128 := Nat.mod_lt _ (by norm_num)
        nlinarith
      calc n < 128 ^ (k - 1) * 128 := this
      _ = 128 ^ (k - 1 + 1) := by ring
      _ = 128 ^ k := by congr 1; omega

theorem varintLen_small {n k : Nat} (hlen : varintLen n ≤ k) (hk : k ≤ 10) : n < 128 ^ k :=
  encodeVarintAux_small 10 n k hlen hk

/-- Decoding from the front of a varint encoding followed by anything
recovers the encoded value and length, provided the value is small enough
to have been encoded exactly (every `usize` is). -/
theorem decodeVarint_encodeVarint {n : Nat} (h : n < 128 ^ 10) (s : List Nat) :
    decodeVarint (encodeVarint n ++ s) = some (n, varintLen n) :=
  decodeVarint_encodeVarintAux 10 n s h

theorem encodeVarintAux_take_ge (fuel : Nat) :
    ∀ n m, m < (encodeVarintAux fuel n).length →
      ∀ x ∈ (encodeVarintAux fuel n).take m, 128 ≤ x := by
  induction fuel with
  | zero =>
    intro n m hm x hx
    simp only [encodeVarintAux, List.length_cons, List.length_nil] at hm
    have hm0 : m = 0 := by omega
    subst hm0
    simp at hx
  | succ fuel ih =>
    intro n m hm x hx
    rw [encodeVarintAux] at hm hx
    by_cases h128 : n < 128
    · rw [if_pos h128] at hm hx
      simp only [List.length_cons, List.length_nil] at hm
      have hm0 : m = 0 := by omega
      subst hm0
      simp at hx
    · rw [if_neg h128] at hm hx
      cases m with
      | zero => simp at hx
      | succ m =>
        rw [List.take_succ_cons, List.mem_cons] at hx
        rcases hx with hx | hx
        · omega
        · exact ih (n / 128) m (by simp only [List.length_cons] at hm; omega) x hx

theorem decodeVarint_none_of_ge {l : List Nat} (h : ∀ x ∈ l, 128 ≤ x) :
    decodeVarint l = none := by
  induction l with
  | nil => rfl
  | cons b t ih =>
    have hb : 128 ≤ b := h b (by simp)
    have ht : ∀ x ∈ t, 128 ≤ x := fun x hx => h x (by simp [hx])
    simp only [decodeVarint, ih ht]
    rw [if_neg (by omega)]

/-! ### Big-endian u32 and CRC lemmas -/

theorem getU32BE_putU32BE {n : Nat} (h : n < 2 ^ 32) (s : List Nat) :
    getU32BE (putU32BE n ++ s) = n := by
  simp only [putU32BE, List.cons_append, List.nil_append, getU32BE, List.headD_cons,
    List.tail_cons]
  omega

theorem crc32step_lt {c : Nat} (h : c < 2 ^ 32) : crc32step c < 2 ^ 32 := by
  rw [crc32step]
  have h2 : c / 2 < 2 ^ 32 := by omega
  split
  · exact Nat.xor_lt_two_pow h2 (by norm_num)
  · exact h2

theorem crc32round8_lt {c : Nat} (h : c < 2 ^ 32) : crc32round8 c < 2 ^ 32 := by
  rw [crc32round8]
  repeat apply crc32step_lt
  exact h

theorem crc32_lt (bs : List Nat) : crc32 bs < 2 ^ 32 := by
  rw [crc32]
  have : ∀ (l : List Nat) (c : Nat), c < 2 ^ 32 →
      l.foldl (fun c b => crc32round8 (c ^^^ b % 256)) c < 2 ^ 32 := by
    intro l
    induction l with
    | nil => intro c hc; simpa using hc
    | cons b t ih =>
      intro c hc
      apply ih
      exact crc32round8_lt
        (Nat.xor_lt_two_pow hc (lt_of_lt_of_le (Nat.mod_lt _ (by norm_num)) (by norm_num)))
  exact Nat.xor_lt_two_pow (this _ _ (by norm_num)) (by norm_num)

/-! ### Association list lemmas -/

theorem lookupA_cons {K V : Type} [DecidableEq K] (k' : K) (v : V) (t : List (K × V)) (k : K) :
    lookupA ((k', v) :: t) k = if k' = k then some v else lookupA t k := rfl

theorem eraseA_cons_self {K V : Type} [DecidableEq K] (a : K) (b : V) (t : List (K × V)) :
    eraseA ((a, b) :: t) a = eraseA t a := by
  rw [eraseA, List.filter_cons_of_neg, eraseA]
  simp

theorem eraseA_cons_ne {K V : Type} [DecidableEq K] (a : K) (b : V) (t : List (K × V))
    (k : K) (h : ¬ a = k) : eraseA ((a, b) :: t) k = (a, b) :: eraseA t k := by
  rw [eraseA, List.filter_cons_of_pos, eraseA]
  simpa using h

theorem lookupA_eraseA {K V : Type} [DecidableEq K] :
    ∀ (l : List (K × V)) (k k' : K), k' ≠ k → lookupA (eraseA l k) k' = lookupA l k'
  | [], _, _, _ => rfl
  | (a, b) :: t, k, k', h => by
    by_cases hak : a = k
    · subst hak
      rw [eraseA_cons_self, lookupA_eraseA t a k' h, lookupA_cons,
        if_neg (fun hh => h hh.symm)]
    · rw [eraseA_cons_ne a b t k hak, lookupA_cons, lookupA_cons,
        lookupA_eraseA t k k' h]

theorem lookupA_eraseA_self {K V : Type} [DecidableEq K] :
    ∀ (l : List (K × V)) (k : K), lookupA (eraseA l k) k = none
  | [], _ => rfl
  | (a, b) :: t, k => by
    by_cases hak : a = k
    · subst hak
      rw [eraseA_cons_self, lookupA_eraseA_self t a]
    · rw [eraseA_cons_ne a b t k hak, lookupA_cons, if_neg hak,
        lookupA_eraseA_self t k]

theorem lookupA_insertA_self {K V : Type} [DecidableEq K] (l : List (K × V)) (k : K) (v : V) :
    lookupA (insertA l k v) k = some v := by
  simp [insertA, lookupA_cons]

theorem lookupA_insertA_ne {K V : Type} [DecidableEq K] (l : List (K × V)) (k k' : K) (v : V)
    (h : k ≠ k') : lookupA (insertA l k v) k' = lookupA l k' := by
  rw [insertA, lookupA_cons, if_neg h]
  exact lookupA_eraseA l k k' (fun he => h he.symm)

/-! ### Encoded record structure -/

theorem length_putU32BE (n : Nat) : (putU32BE n).length = 4 := rfl

theorem varintLen_pos (n : Nat) : 1 ≤ varintLen n := encodeVarintAux_length_pos 10 n

theorem decodeVarint_encode_of_fit {n : Nat} (h : varintLen n ≤ 5) (s : List Nat) :
    decodeVarint (encodeVarint n ++ s) = some (n, varintLen n) :=
  decodeVarint_encodeVarintAux 10 n s
    (lt_of_lt_of_le (varintLen_small h (by norm_num))
      (Nat.pow_le_pow_right (by norm_num) (by norm_num)))

theorem encode_length (r : LogRecord) :
    r.encode.length =
      1 + varintLen r.key.length + varintLen r.value.length +
        r.key.length + r.value.length + 4 := by
  simp [LogRecord.encode, encodedBody, putU32BE, varintLen]
  omega

theorem seven_le_encode_length (r : LogRecord) : 7 ≤ r.encode.length := by
  have := encode_length r
  have hk := varintLen_pos r.key.length
  have hv := varintLen_pos r.value.length
  omega

/-- The encoded record split as header part (type byte and the two length
varints) followed by key, value and CRC bytes. -/
theorem encode_parts (r : LogRecord) :
    r.encode =
      (r.rec_type.toU8 :: (encodeVarint r.key.length ++ encodeVarint r.value.length)) ++
        (r.key ++ (r.value ++ putU32BE (crc32 (encodedBody r)))) := by
  simp [LogRecord.encode, encodedBody, List.append_assoc]

theorem readAt_append_right (p X : List Nat) (off len : Nat) :
    readAt (p ++ X) (p.length + off) len = readAt X off len := by
  rw [readAt, readAt, List.drop_append]

theorem readAt_left (p X : List Nat) (len : Nat) :
    readAt (p ++ X) p.length len = readAt X 0 len := by
  have := readAt_append_right p X 0 len
  simpa using this

theorem readAt_exact (X : List Nat) (len : Nat) (h : len ≤ X.length) :
    readAt X 0 len = X.take len := by
  rw [readAt]
  simp only [List.drop_zero]
  rw [List.length_take]
  have : min len X.length = len := by omega
  rw [this, Nat.sub_self]
  simp

theorem fromU8_toU8 (t : LogRecodType) : LogRecodType.fromU8 t.toU8 = some t := by
  cases t <;> rfl

/-- Decoding at the offset where an encoded record was written returns the
record and its encoded size, for any bytes before and after it, provided
the record's real header fits the decoder's fixed header buffer and the
key/value lengths do not trip the EOF heuristic. -/
theorem read_log_record_encode (p rest : List Nat) (r : LogRecord)
    (hfit : 1 + varintLen r.key.length + varintLen r.value.length ≤
      max_log_record_header_size)
    (heof : ¬ (r.key.length = 0 ∧ r.value.length ≠ 0)) :
    read_log_record (p ++ (r.encode ++ rest)) p.length = .ok (r, r.encode.length) := by
  have hmax : max_log_record_header_size = 6 := by decide
  have ha1 : 1 ≤ varintLen r.key.length := varintLen_pos _
  have hb1 : 1 ≤ varintLen r.value.length := varintLen_pos _
  have hab : varintLen r.key.length + varintLen r.value.length ≤ 5 := by omega
  have henc7 : 7 ≤ r.encode.length := seven_le_encode_length r
  -- the header buffer is the first six bytes of the encoded record
  have hheader : readAt (p ++ (r.encode ++ rest)) p.length max_log_record_header_size =
      r.encode.take 6 := by
    rw [hmax, readAt_left, readAt_exact]
    · rw [List.take_append_of_le_length (by omega)]
    · rw [List.length_append]; omega
  -- name the five pieces of the encoding
  set vk := encodeVarint r.key.length with hvk
  set vv := encodeVarint r.value.length with hvv
  set crcb := putU32BE (crc32 (encodedBody r)) with hcrcb
  have hvklen : vk.length = varintLen r.key.length := rfl
  have hvvlen : vv.length = varintLen r.value.length := rfl
  have hparts : r.encode =
      (r.rec_type.toU8 :: (vk ++ vv)) ++ (r.key ++ (r.value ++ crcb)) := encode_parts r
  -- the first six bytes: type byte then five bytes of the varint area
  have htake6 : r.encode.take 6 =
      r.rec_type.toU8 :: (vk ++ (vv ++ (r.key ++ (r.value ++ crcb)))).take 5 := by
    rw [hparts]
    simp [List.take_succ_cons, List.append_assoc]
  -- parse the key-length varint
  have htail5 : (vk ++ (vv ++ (r.key ++ (r.value ++ crcb)))).take 5 =
      vk ++ (vv ++ (r.key ++ (r.value ++ crcb))).take (5 - vk.length) := by
    rw [List.take_append_eq_append_take, List.take_of_length_le (by rw [hvklen]; omega)]
  have hdv1 : decodeVarint (vk ++ (vv ++ (r.key ++ (r.value ++ crcb))).take (5 - vk.length)) =
      some (r.key.length, varintLen r.key.length) :=
    decodeVarint_encode_of_fit (by omega) _
  -- parse the value-length varint
  have hdrop : (vk ++ (vv ++ (r.key ++ (r.value ++ crcb))).take (5 - vk.length)).drop
      (varintLen r.key.length) = (vv ++ (r.key ++ (r.value ++ crcb))).take (5 - vk.length) := by
    rw [← hvklen, List.drop_left]
  have htake2 : (vv ++ (r.key ++ (r.value ++ crcb))).take (5 - vk.length) =
      vv ++ (r.key ++ (r.value ++ crcb)).take (5 - vk.length - vv.length) := by
    rw [List.take_append_eq_append_take,
      List.take_of_length_le (by rw [hvvlen]; rw [hvklen]; omega)]
  have hdv2 : decodeVarint
      (vv ++ (r.key ++ (r.value ++ crcb)).take (5 - vk.length - vv.length)) =
      some (r.value.length, varintLen r.value.length) :=
    decodeVarint_encode_of_fit (by omega) _
  -- the key/value/CRC area
  have hkv : readAt (p ++ (r.encode ++ rest))
      (p.length + (1 + varintLen r.key.length + varintLen r.value.length))
      (r.key.length + r.value.length + 4) = r.key ++ (r.value ++ crcb) := by
    rw [readAt_append_right]
    have hassoc : r.encode ++ rest =
        (r.rec_type.toU8 :: (vk ++ vv)) ++ ((r.key ++ (r.value ++ crcb)) ++ rest) := by
      rw [hparts]; simp [List.append_assoc]
    have hhdrlen : (r.rec_type.toU8 :: (vk ++ vv)).length =
        1 + varintLen r.key.length + varintLen r.value.length := by
      simp [hvklen, hvvlen]; omega
    rw [hassoc, ← hhdrlen, readAt_left, readAt_exact]
    · have hlen : r.key.length + r.value.length + 4 =
          (r.key ++ (r.value ++ crcb)).length := by
        simp [hcrcb, length_putU32BE]; omega
      rw [hlen, List.take_left]
    · simp [hcrcb, length_putU32BE]
      omega
  have hcrcval : getU32BE ((r.key ++ (r.value ++ crcb)).drop (r.key.length + r.value.length)) =
      crc32 (encodedBody r) := by
    have hdrop4 : (r.key ++ (r.value ++ crcb)).drop (r.key.length + r.value.length) = crcb := by
      rw [show r.key.length + r.value.length = r.key.length + r.value.length from rfl]
      rw [List.drop_append, show r.value.length = r.value.length + 0 by omega,
        List.drop_append]
      rfl
    rw [hdrop4, hcrcb, ← List.append_nil (putU32BE (crc32 (encodedBody r)))]
    exact getU32BE_putU32BE (crc32_lt _) []
  -- now unfold the decoder and discharge each step
  rw [read_log_record]
  simp only [hheader, htake6, List.headD_cons, List.tail_cons]
  simp only [htail5]
  simp only [hdv1]
  simp only [hdrop]
  simp only [htake2]
  simp only [hdv2]
  rw [if_neg heof]
  simp only [fromU8_toU8, hkv]
  rw [List.take_left]
  have hdropkey : (r.key ++ (r.value ++ crcb)).drop r.key.length = r.value ++ crcb :=
    List.drop_left _ _
  rw [hdropkey, List.take_left]
  have hne : ¬ (getU32BE ((r.key ++ (r.value ++ crcb)).drop (r.key.length + r.value.length)) ≠
      ({ key := r.key, value := r.value, rec_type := r.rec_type } : LogRecord).get_crc) := by
    rw [hcrcval]
    exact fun h => h rfl
  rw [if_neg hne, encode_length r]

/-- When the two length varints of a record do not fit in the five bytes
the decoder's fixed 6-byte header buffer leaves after the type byte, the
value-length varint is truncated and the decoder aborts with the
(modelled) `unwrap` panic — even though the record is well formed. -/
theorem read_log_record_header_overflow (p rest : List Nat) (r : LogRecord)
    (ha : varintLen r.key.length ≤ 5)
    (hb : 5 < varintLen r.key.length + varintLen r.value.length) :
    read_log_record (p ++ (r.encode ++ rest)) p.length = .error .ModelPanic := by
  have hmax : max_log_record_header_size = 6 := by decide
  have hb1 : 1 ≤ varintLen r.value.length := varintLen_pos _
  have henc7 : 7 ≤ r.encode.length := seven_le_encode_length r
  have hheader : readAt (p ++ (r.encode ++ rest)) p.length max_log_record_header_size =
      r.encode.take 6 := by
    rw [hmax, readAt_left, readAt_exact]
    · rw [List.take_append_of_le_length (by omega)]
    · rw [List.length_append]; omega
  set vk := encodeVarint r.key.length with hvk
  set vv := encodeVarint r.value.length with hvv
  set crcb := putU32BE (crc32 (encodedBody r)) with hcrcb
  have hvklen : vk.length = varintLen r.key.length := rfl
  have hvvlen : vv.length = varintLen r.value.length := rfl
  have hparts : r.encode =
      (r.rec_type.toU8 :: (vk ++ vv)) ++ (r.key ++ (r.value ++ crcb)) := encode_parts r
  have htake6 : r.encode.take 6 =
      r.rec_type.toU8 :: (vk ++ (vv ++ (r.key ++ (r.value ++ crcb)))).take 5 := by
    rw [hparts]
    simp [List.take_succ_cons, List.append_assoc]
  have htail5 : (vk ++ (vv ++ (r.key ++ (r.value ++ crcb)))).take 5 =
      vk ++ (vv ++ (r.key ++ (r.value ++ crcb))).take (5 - vk.length) := by
    rw [List.take_append_eq_append_take, List.take_of_length_le (by rw [hvklen]; omega)]
  have hdv1 : decodeVarint (vk ++ (vv ++ (r.key ++ (r.value ++ crcb))).take (5 - vk.length)) =
      some (r.key.length, varintLen r.key.length) :=
    decodeVarint_encode_of_fit (by omega) _
  have hdrop : (vk ++ (vv ++ (r.key ++ (r.value ++ crcb))).take (5 - vk.length)).drop
      (varintLen r.key.length) = (vv ++ (r.key ++ (r.value ++ crcb))).take (5 - vk.length) := by
    rw [← hvklen, List.drop_left]
  have htrunc : (vv ++ (r.key ++ (r.value ++ crcb))).take (5 - vk.length) =
      vv.take (5 - vk.length) :=
    List.take_append_of_le_length (by rw [hvvlen, hvklen]; omega)
  have hnone : decodeVarint (vv.take (5 - vk.length)) = none :=
    decodeVarint_none_of_ge
      (encodeVarintAux_take_ge 10 r.value.length (5 - vk.length)
        (by show 5 - vk.length < varintLen r.value.length; omega))
  rw [read_log_record]
  simp only [hheader, htake6, List.headD_cons, List.tail_cons]
  simp only [htail5]
  simp only [hdv1]
  simp only [hdrop]
  simp only [htrunc]
  simp only [hnone]

/-! ### Engine trace machinery -/

/-- The NORMAL record `Engine::put` builds for a key/value pair. -/
def putRecord (k v : List Nat) : LogRecord :=
  ⟨log_record_with_seq k NON_TRANSACTION_SEQ_NO, v, .NORMAL⟩

/-- The DELETED tombstone `Engine::delete` builds for a key. -/
def delRecord (k : List Nat) : LogRecord :=
  ⟨log_record_with_seq k NON_TRANSACTION_SEQ_NO, [], .DELETED⟩

/-- A user-level engine operation (the claims quantify over put/delete
interleavings). -/
inductive Op where
  | putOp (k v : List Nat)
  | delOp (k : List Nat)
deriving DecidableEq, Repr

/-- The key an operation touches. -/
def Op.key : Op → List Nat
  | .putOp k _ => k
  | .delOp k => k

/-- Run one operation on the engine; a failed operation (empty key) leaves
the state unchanged, matching the source where the error paths return
before mutating anything. -/
def applyOp (opt : Options) (s : EngineState) : Op → EngineState
  | .putOp k v =>
    match Engine.put opt s k v with
    | .ok s' => s'
    | .error _ => s
  | .delOp k =>
    match Engine.delete opt s k with
    | .ok s' => s'
    | .error _ => s

/-- Well-formedness of an engine state: the active file's in-memory append
offset equals its on-disk length, and every sealed file id is strictly
below the active id (spec invariant 4).  Both hold for a fresh engine and
are preserved by every operation. -/
def WFE (s : EngineState) : Prop :=
  s.active.write_off = s.active.content.length ∧
    ∀ p ∈ s.older, p.1 < s.active.file_id

instance (s : EngineState) : Decidable (WFE s) := by
  unfold WFE
  infer_instance

/-- The directory tracks key `k` at a position whose bytes decode to the
put record for `(k, v)`. -/
def Tracks (k v : List Nat) (s : EngineState) : Prop :=
  ∃ pos q rest, lookupA s.index k = some pos ∧
    pos.file_id ≤ s.active.file_id ∧
    Engine.fileContentAt s pos.file_id = some (q ++ ((putRecord k v).encode ++ rest)) ∧
    pos.offset = q.length

/-- The `bytes_write` counter after one append (sync bookkeeping). -/
def bwAfter (opt : Options) (bw len : Nat) : Nat :=
  if opt.sync_writes ||
      (decide (0 < opt.bytes_per_sync) && decide (opt.bytes_per_sync ≤ bw + len)) then 0
  else bw + len

theorem append_eq_rot (opt : Options) (s : EngineState) (rec1 : LogRecord)
    (h : opt.data_file_size < s.active.write_off + rec1.encode.length) :
    Engine.append_log_record opt s rec1 =
      ({ s with
          older := insertA s.older s.active.file_id ⟨s.active.file_id, 0, s.active.content⟩
          active := ⟨s.active.file_id + 1, rec1.encode.length, rec1.encode⟩
          bytes_write := bwAfter opt s.bytes_write rec1.encode.length },
        ⟨s.active.file_id + 1, 0, rec1.encode.length⟩) := by
  obtain ⟨⟨afid, aoff, acont⟩, older, index, seq, rec, bw⟩ := s
  simp [Engine.append_log_record, h, bwAfter]

theorem append_eq_norot (opt : Options) (s : EngineState) (rec1 : LogRecord)
    (h : ¬ opt.data_file_size < s.active.write_off + rec1.encode.length) :
    Engine.append_log_record opt s rec1 =
      ({ s with
          active := ⟨s.active.file_id, s.active.write_off + rec1.encode.length,
            s.active.content ++ rec1.encode⟩
          bytes_write := bwAfter opt s.bytes_write rec1.encode.length },
        ⟨s.active.file_id, s.active.write_off, rec1.encode.length⟩) := by
  obtain ⟨⟨afid, aoff, acont⟩, older, index, seq, rec, bw⟩ := s
  simp [Engine.append_log_record, h, bwAfter]

theorem append_index (opt : Options) (s : EngineState) (rec1 : LogRecord) :
    (Engine.append_log_record opt s rec1).1.index = s.index := by
  by_cases h : opt.data_file_size < s.active.write_off + rec1.encode.length
  · rw [append_eq_rot opt s rec1 h]
  · rw [append_eq_norot opt s rec1 h]

theorem append_reclaim (opt : Options) (s : EngineState) (rec1 : LogRecord) :
    (Engine.append_log_record opt s rec1).1.reclaim_size = s.reclaim_size := by
  by_cases h : opt.data_file_size < s.active.write_off + rec1.encode.length
  · rw [append_eq_rot opt s rec1 h]
  · rw [append_eq_norot opt s rec1 h]

theorem append_active_mono (opt : Options) (s : EngineState) (rec1 : LogRecord) :
    s.active.file_id ≤ (Engine.append_log_record opt s rec1).1.active.file_id := by
  by_cases h : opt.data_file_size < s.active.write_off + rec1.encode.length
  · rw [append_eq_rot opt s rec1 h]; simp
  · rw [append_eq_norot opt s rec1 h]

theorem append_WFE (opt : Options) (s : EngineState) (rec1 : LogRecord) (hwf : WFE s) :
    WFE (Engine.append_log_record opt s rec1).1 := by
  obtain ⟨hoff, holder⟩ := hwf
  by_cases h : opt.data_file_size < s.active.write_off + rec1.encode.length
  · rw [append_eq_rot opt s rec1 h]
    refine ⟨rfl, ?_⟩
    intro p hp
    simp only [insertA, List.mem_cons] at hp
    rcases hp with hp | hp
    · simp [hp]
    · have hmem : p ∈ s.older := List.mem_of_mem_filter hp
      have := holder p hmem
      simp only
      omega
  · rw [append_eq_norot opt s rec1 h]
    refine ⟨?_, ?_⟩
    · simp [hoff]
    · intro p hp
      exact holder p hp

theorem append_pos_spec (opt : Options) (s : EngineState) (rec1 : LogRecord) (hwf : WFE s) :
    (Engine.append_log_record opt s rec1).2.file_id =
        (Engine.append_log_record opt s rec1).1.active.file_id ∧
      ∃ q, (Engine.append_log_record opt s rec1).1.active.content = q ++ rec1.encode ∧
        (Engine.append_log_record opt s rec1).2.offset = q.length ∧
        (Engine.append_log_record opt s rec1).2.size = rec1.encode.length := by
  obtain ⟨hoff, _⟩ := hwf
  by_cases h : opt.data_file_size < s.active.write_off + rec1.encode.length
  · rw [append_eq_rot opt s rec1 h]
    exact ⟨rfl, [], by simp⟩
  · rw [append_eq_norot opt s rec1 h]
    exact ⟨rfl, s.active.content, by simp [hoff]⟩

theorem append_fileContent (opt : Options) (s : EngineState) (rec1 : LogRecord)
    (hwf : WFE s) (fid : Nat) (c : List Nat) (hle : fid ≤ s.active.file_id)
    (hc : Engine.fileContentAt s fid = some c) :
    ∃ ext, Engine.fileContentAt (Engine.append_log_record opt s rec1).1 fid =
      some (c ++ ext) := by
  obtain ⟨hoff, holder⟩ := hwf
  by_cases h : opt.data_file_size < s.active.write_off + rec1.encode.length
  · rw [append_eq_rot opt s rec1 h]
    by_cases hfid : fid = s.active.file_id
    · refine ⟨[], ?_⟩
      rw [Engine.fileContentAt, if_pos hfid] at hc
      rw [Engine.fileContentAt]
      simp only
      rw [if_neg (show ¬ fid = s.active.file_id + 1 by omega), hfid, lookupA_insertA_self]
      simp only [Option.map_some']
      rw [List.append_nil]
      injection hc with hc
      rw [hc]
    · refine ⟨[], ?_⟩
      rw [Engine.fileContentAt, if_neg hfid] at hc
      rw [Engine.fileContentAt]
      simp only
      rw [if_neg (show ¬ fid = s.active.file_id + 1 by omega),
        lookupA_insertA_ne _ _ _ _ (fun he => hfid he.symm), List.append_nil]
      exact hc
  · rw [append_eq_norot opt s rec1 h]
    by_cases hfid : fid = s.active.file_id
    · refine ⟨rec1.encode, ?_⟩
      rw [Engine.fileContentAt, if_pos hfid] at hc
      rw [Engine.fileContentAt]
      simp only
      rw [if_pos hfid]
      injection hc with hc
      rw [hc]
    · refine ⟨[], ?_⟩
      rw [Engine.fileContentAt, if_neg hfid] at hc
      rw [Engine.fileContentAt]
      simp only
      rw [if_neg hfid, List.append_nil]
      exact hc


theorem fileContentAt_update (x : EngineState) (i : List (List Nat × LogRecodPos))
    (n : Nat) (fid : Nat) :
    Engine.fileContentAt { x with index := i, reclaim_size := n } fid =
      Engine.fileContentAt x fid := rfl

theorem put_ok (opt : Options) (s : EngineState) (k v : List Nat) (hk : ¬ k = []) :
    Engine.put opt s k v = .ok
      { (Engine.append_log_record opt s (putRecord k v)).1 with
        index := insertA (Engine.append_log_record opt s (putRecord k v)).1.index k
          (Engine.append_log_record opt s (putRecord k v)).2
        reclaim_size := (Engine.append_log_record opt s (putRecord k v)).1.reclaim_size +
          (match lookupA (Engine.append_log_record opt s (putRecord k v)).1.index k with
            | some old => old.size
            | none => 0) } := by
  rw [Engine.put, if_neg hk]
  rfl

theorem delete_spec (opt : Options) (s : EngineState) (k : List Nat) (pos0 : LogRecodPos)
    (hk : ¬ k = []) (hmem : lookupA s.index k = some pos0) :
    Engine.delete opt s k = .ok
      { (Engine.append_log_record opt s (delRecord k)).1 with
        index := eraseA (Engine.append_log_record opt s (delRecord k)).1.index k
        reclaim_size := (Engine.append_log_record opt s (delRecord k)).1.reclaim_size +
          pos0.size + pos0.size } := by
  have hidx : lookupA (Engine.append_log_record opt s
      ⟨log_record_with_seq k NON_TRANSACTION_SEQ_NO, [], .DELETED⟩).1.index k = some pos0 := by
    rw [append_index]; exact hmem
  rw [Engine.delete, if_neg hk, hmem]
  simp only [hidx]
  rfl

theorem applyOp_putOp_eq (opt : Options) (s : EngineState) (k v : List Nat) (hk : ¬ k = []) :
    applyOp opt s (.putOp k v) =
      { (Engine.append_log_record opt s (putRecord k v)).1 with
        index := insertA (Engine.append_log_record opt s (putRecord k v)).1.index k
          (Engine.append_log_record opt s (putRecord k v)).2
        reclaim_size := (Engine.append_log_record opt s (putRecord k v)).1.reclaim_size +
          (match lookupA (Engine.append_log_record opt s (putRecord k v)).1.index k with
            | some old => old.size
            | none => 0) } := by
  rw [applyOp, put_ok opt s k v hk]

theorem applyOp_delOp_eq (opt : Options) (s : EngineState) (k : List Nat)
    (pos0 : LogRecodPos) (hk : ¬ k = []) (hmem : lookupA s.index k = some pos0) :
    applyOp opt s (.delOp k) =
      { (Engine.append_log_record opt s (delRecord k)).1 with
        index := eraseA (Engine.append_log_record opt s (delRecord k)).1.index k
        reclaim_size := (Engine.append_log_record opt s (delRecord k)).1.reclaim_size +
          pos0.size + pos0.size } := by
  rw [applyOp, delete_spec opt s k pos0 hk hmem]

theorem applyOp_putOp_empty (opt : Options) (s : EngineState) (v : List Nat) :
    applyOp opt s (.putOp [] v) = s := by
  rw [applyOp, Engine.put]
  simp

theorem applyOp_delOp_empty (opt : Options) (s : EngineState) :
    applyOp opt s (.delOp []) = s := by
  rw [applyOp, Engine.delete]
  simp

theorem applyOp_delOp_missing (opt : Options) (s : EngineState) (k : List Nat)
    (hk : ¬ k = []) (hmiss : lookupA s.index k = none) :
    applyOp opt s (.delOp k) = s := by
  rw [applyOp, Engine.delete, if_neg hk, hmiss]

theorem applyOp_WFE (opt : Options) (op : Op) (s : EngineState) (hwf : WFE s) :
    WFE (applyOp opt s op) := by
  cases op with
  | putOp k v =>
    by_cases hk : k = []
    · subst hk
      rw [applyOp_putOp_empty]
      exact hwf
    · rw [applyOp_putOp_eq opt s k v hk]
      exact append_WFE opt s (putRecord k v) hwf
  | delOp k =>
    by_cases hk : k = []
    · subst hk
      rw [applyOp_delOp_empty]
      exact hwf
    · cases hmem : lookupA s.index k with
      | none =>
        rw [applyOp_delOp_missing opt s k hk hmem]
        exact hwf
      | some pos0 =>
        rw [applyOp_delOp_eq opt s k pos0 hk hmem]
        exact append_WFE opt s (delRecord k) hwf


theorem putRecord_key (k v : List Nat) : (putRecord k v).key = 0 :: k := rfl

theorem applyOp_Tracks (opt : Options) (op : Op) (s : EngineState) (k v : List Nat)
    (hwf : WFE s) (ht : Tracks k v s) (hne : ¬ Op.key op = k) :
    Tracks k v (applyOp opt s op) := by
  obtain ⟨pos, q, rest, hlook, hle, hcontent, hoffs⟩ := ht
  cases op with
  | putOp k2 v2 =>
    have hkk : ¬ k2 = k := by simpa [Op.key] using hne
    by_cases hk : k2 = []
    · subst hk
      rw [applyOp_putOp_empty]
      exact ⟨pos, q, rest, hlook, hle, hcontent, hoffs⟩
    · rw [applyOp_putOp_eq opt s k2 v2 hk]
      obtain ⟨ext, hext⟩ :=
        append_fileContent opt s (putRecord k2 v2) hwf pos.file_id _ hle hcontent
      refine ⟨pos, q, rest ++ ext, ?_, ?_, ?_, hoffs⟩
      · show lookupA (insertA (Engine.append_log_record opt s (putRecord k2 v2)).1.index k2
          (Engine.append_log_record opt s (putRecord k2 v2)).2) k = some pos
        rw [lookupA_insertA_ne _ _ _ _ hkk, append_index]
        exact hlook
      · show pos.file_id ≤ (Engine.append_log_record opt s (putRecord k2 v2)).1.active.file_id
        exact le_trans hle (append_active_mono opt s (putRecord k2 v2))
      · rw [fileContentAt_update, hext]
        simp [List.append_assoc]
  | delOp k2 =>
    have hkk : ¬ k2 = k := by simpa [Op.key] using hne
    by_cases hk : k2 = []
    · subst hk
      rw [applyOp_delOp_empty]
      exact ⟨pos, q, rest, hlook, hle, hcontent, hoffs⟩
    · cases hmem : lookupA s.index k2 with
      | none =>
        rw [applyOp_delOp_missing opt s k2 hk hmem]
        exact ⟨pos, q, rest, hlook, hle, hcontent, hoffs⟩
      | some pos0 =>
        rw [applyOp_delOp_eq opt s k2 pos0 hk hmem]
        obtain ⟨ext, hext⟩ :=
          append_fileContent opt s (delRecord k2) hwf pos.file_id _ hle hcontent
        refine ⟨pos, q, rest ++ ext, ?_, ?_, ?_, hoffs⟩
        · show lookupA (eraseA (Engine.append_log_record opt s (delRecord k2)).1.index k2) k =
            some pos
          rw [lookupA_eraseA _ _ _ (fun he => hkk he.symm), append_index]
          exact hlook
        · show pos.file_id ≤ (Engine.append_log_record opt s (delRecord k2)).1.active.file_id
          exact le_trans hle (append_active_mono opt s (delRecord k2))
        · rw [fileContentAt_update, hext]
          simp [List.append_assoc]

theorem put_establishes (opt : Options) (s : EngineState) (k v : List Nat) (s1 : EngineState)
    (hwf : WFE s) (hk : ¬ k = []) (hput : Engine.put opt s k v = .ok s1) :
    WFE s1 ∧ Tracks k v s1 := by
  rw [put_ok opt s k v hk] at hput
  have hs1 : { (Engine.append_log_record opt s (putRecord k v)).1 with
      index := insertA (Engine.append_log_record opt s (putRecord k v)).1.index k
        (Engine.append_log_record opt s (putRecord k v)).2
      reclaim_size := (Engine.append_log_record opt s (putRecord k v)).1.reclaim_size +
        (match lookupA (Engine.append_log_record opt s (putRecord k v)).1.index k with
          | some old => old.size
          | none => 0) } = s1 := by injection hput
  subst hs1
  obtain ⟨hfid, q, hcont, hoffs, hsize⟩ := append_pos_spec opt s (putRecord k v) hwf
  refine ⟨append_WFE opt s (putRecord k v) hwf, ?_⟩
  refine ⟨(Engine.append_log_record opt s (putRecord k v)).2, q, [], ?_, ?_, ?_, hoffs⟩
  · show lookupA (insertA (Engine.append_log_record opt s (putRecord k v)).1.index k
      (Engine.append_log_record opt s (putRecord k v)).2) k =
      some (Engine.append_log_record opt s (putRecord k v)).2
    exact lookupA_insertA_self _ _ _
  · show (Engine.append_log_record opt s (putRecord k v)).2.file_id ≤
      (Engine.append_log_record opt s (putRecord k v)).1.active.file_id
    rw [hfid]
  · rw [fileContentAt_update, Engine.fileContentAt, if_pos hfid, hcont]
    simp

theorem get_of_tracks (k v : List Nat) (s : EngineState) (hk : ¬ k = [])
    (hfit : 1 + varintLen (k.length + 1) + varintLen v.length ≤ max_log_record_header_size)
    (ht : Tracks k v s) : Engine.get s k = .ok v := by
  obtain ⟨pos, q, rest, hlook, hle, hcontent, hoffs⟩ := ht
  have hkeylen : (putRecord k v).key.length = k.length + 1 := by
    rw [putRecord_key]
    simp
  have hread : read_log_record (q ++ ((putRecord k v).encode ++ rest)) q.length =
      .ok (putRecord k v, (putRecord k v).encode.length) := by
    apply read_log_record_encode
    · rw [hkeylen]
      exact hfit
    · intro hcontra
      rw [hkeylen] at hcontra
      omega
  rw [Engine.get, if_neg hk]
  simp only [hlook]
  simp only [hcontent]
  rw [hoffs]
  simp only [hread]
  rfl

theorem trace_preserves (opt : Options) (k v : List Nat) :
    ∀ (ops : List Op) (s : EngineState), WFE s → Tracks k v s →
      (∀ op ∈ ops, ¬ Op.key op = k) →
      WFE (ops.foldl (applyOp opt) s) ∧ Tracks k v (ops.foldl (applyOp opt) s) := by
  intro ops
  induction ops with
  | nil => intro s hw ht _; exact ⟨hw, ht⟩
  | cons op rest ih =>
    intro s hw ht hops
    rw [List.foldl_cons]
    exact ih (applyOp opt s op) (applyOp_WFE opt op s hw)
      (applyOp_Tracks opt op s k v hw ht (hops op (List.mem_cons_self op rest)))
      (fun o ho => hops o (List.mem_cons_of_mem op ho))


/-! ### Concrete inputs used by witnesses and counterexamples -/

/-- The default options of `options.rs` (256 MiB segments, no fsync). -/
def opt0 : Options := ⟨268435456, false, 0⟩

/-- The key bytes `"k1"`. -/
def k1 : List Nat := [107, 49]

/-- The value bytes `"v1"`. -/
def v1 : List Nat := [118, 49]

/-- A key of 16383 bytes: together with `bigV` its record's header needs
seven bytes, one more than the decoder's buffer. -/
def bigK : List Nat := List.replicate 16383 97

/-- A value of 16384 bytes. -/
def bigV : List Nat := List.replicate 16384 98

/-- The engine state after `put("k1","v1")` on a fresh engine. -/
def c1WitState : EngineState :=
  match Engine.put opt0 freshEngine k1 v1 with
  | .ok s => s
  | .error _ => freshEngine

/-- After a successful put whose record header overflows the decoder's
6-byte buffer, `get` runs into the modelled varint `unwrap` panic instead
of returning the value. -/
theorem put_get_header_overflow (opt : Options) (s : EngineState) (k v : List Nat)
    (s1 : EngineState) (hwf : WFE s) (hk : ¬ k = [])
    (ha : varintLen (k.length + 1) ≤ 5)
    (hb : 5 < varintLen (k.length + 1) + varintLen v.length)
    (hput : Engine.put opt s k v = .ok s1) :
    Engine.get s1 k = .error .ModelPanic := by
  rw [put_ok opt s k v hk] at hput
  have hs1 : { (Engine.append_log_record opt s (putRecord k v)).1 with
      index := insertA (Engine.append_log_record opt s (putRecord k v)).1.index k
        (Engine.append_log_record opt s (putRecord k v)).2
      reclaim_size := (Engine.append_log_record opt s (putRecord k v)).1.reclaim_size +
        (match lookupA (Engine.append_log_record opt s (putRecord k v)).1.index k with
          | some old => old.size
          | none => 0) } = s1 := by injection hput
  subst hs1
  obtain ⟨hfid, q, hcont, hoffs, _⟩ := append_pos_spec opt s (putRecord k v) hwf
  have hkeylen : (putRecord k v).key.length = k.length + 1 := by
    rw [putRecord_key]
    simp
  have hover : read_log_record (q ++ ((putRecord k v).encode ++ [])) q.length =
      .error .ModelPanic := by
    apply read_log_record_header_overflow
    · rw [hkeylen]
      exact ha
    · rw [hkeylen]
      exact hb
  have hfc : Engine.fileContentAt
      { (Engine.append_log_record opt s (putRecord k v)).1 with
        index := insertA (Engine.append_log_record opt s (putRecord k v)).1.index k
          (Engine.append_log_record opt s (putRecord k v)).2
        reclaim_size := (Engine.append_log_record opt s (putRecord k v)).1.reclaim_size +
          (match lookupA (Engine.append_log_record opt s (putRecord k v)).1.index k with
            | some old => old.size
            | none => 0) }
      (Engine.append_log_record opt s (putRecord k v)).2.file_id =
      some (q ++ ((putRecord k v).encode ++ [])) := by
    rw [fileContentAt_update, Engine.fileContentAt, if_pos hfid, hcont]
    simp
  rw [Engine.get, if_neg hk]
  simp only [lookupA_insertA_self]
  simp only [hfc]
  rw [hoffs]
  simp only [hover]

/-- C1, counterexample: the claim quantifies over every non-empty key and
every value, but for a 16383-byte key and a 16384-byte value the stored
record's header takes 7 bytes while the decoder's fixed buffer holds 6, so
after a successful `put` the subsequent `get` aborts in the truncated
varint `unwrap` (a panic in the Rust source) instead of returning the
value. -/
theorem C1_counterexample :
    ∃ s1, Engine.put opt0 freshEngine bigK bigV = .ok s1 ∧
      Engine.get s1 bigK = .error .ModelPanic ∧
      Engine.get s1 bigK ≠ .ok bigV := by
  have hka : bigK.length = 16383 := List.length_replicate 16383 97
  have hva : bigV.length = 16384 := List.length_replicate 16384 98
  have hknil : ¬ bigK = [] := by
    intro h
    have h0 : bigK.length = 16383 := hka
    rw [h] at h0
    simp at h0
  have hput := put_ok opt0 freshEngine bigK bigV hknil
  have hget := put_get_header_overflow opt0 freshEngine bigK bigV _ (by decide) hknil
    (by rw [hka]; decide) (by rw [hka, hva]; decide) hput
  refine ⟨_, hput, hget, ?_⟩
  rw [hget]
  decide

/-- C1 (amended): for every open engine in a well-formed state, every
non-empty key `k` and value `v` whose record header fits the decoder's
6-byte header buffer, after a successful `put(k, v)` followed by any
sequence of put/delete operations on other keys, `get(k)` returns `v`. -/
theorem C1_put_get_persists (opt : Options) (k v : List Nat) (s s1 : EngineState)
    (ops : List Op) (hk : ¬ k = [])
    (hfit : 1 + varintLen (k.length + 1) + varintLen v.length ≤
      max_log_record_header_size)
    (hwf : WFE s) (hput : Engine.put opt s k v = .ok s1)
    (hops : ∀ op ∈ ops, ¬ Op.key op = k) :
    Engine.get (ops.foldl (applyOp opt) s1) k = .ok v := by
  obtain ⟨hw1, ht1⟩ := put_establishes opt s k v s1 hwf hk hput
  obtain ⟨hw2, ht2⟩ := trace_preserves opt k v ops s1 hw1 ht1 hops
  exact get_of_tracks k v _ hk hfit ht2

/-- C1, witness: the amended theorem applied to `put("k1","v1")` on a fresh
engine followed by a put and a delete of a different key. -/
theorem C1_witness :
    Engine.get (List.foldl (applyOp opt0) c1WitState [Op.putOp [97] [98], Op.delOp [97]])
      k1 = .ok v1 :=
  C1_put_get_persists opt0 k1 v1 freshEngine c1WitState
    [Op.putOp [97] [98], Op.delOp [97]] (by decide) (by decide) (by decide) (by decide)
    (by decide)


/-! ### Claim theorems C2 - C10 -/

/-- C5 (amended): for every record whose real header (type byte plus the
two length varints) fits the decoder's 6-byte buffer and which does not
trip the EOF heuristic (key empty with value non-empty), writing
`encode(record)` at any offset and decoding at that offset returns the
same key, value and type together with the encoded size. -/
theorem C5_encode_decode_roundtrip (p : List Nat) (r : LogRecord)
    (hfit : 1 + varintLen r.key.length + varintLen r.value.length ≤
      max_log_record_header_size)
    (heof : ¬ (r.key.length = 0 ∧ r.value.length ≠ 0)) :
    read_log_record (p ++ r.encode) p.length = .ok (r, r.encode.length) := by
  have h := read_log_record_encode p [] r hfit heof
  simpa using h

/-- C5, witness: the round trip at a concrete record and a concrete
prefix. -/
theorem C5_witness :
    read_log_record ([7] ++ (⟨[1], [2], .NORMAL⟩ : LogRecord).encode)
      (List.length [7]) =
      .ok (⟨[1], [2], .NORMAL⟩, (⟨[1], [2], .NORMAL⟩ : LogRecord).encode.length) :=
  C5_encode_decode_roundtrip [7] ⟨[1], [2], .NORMAL⟩ (by decide) (by decide)

/-- C5, counterexample: a record with empty key and non-empty value is
well formed, but decoding its own encoding trips the EOF heuristic
(`key_size == 0 && value_size != 0`), so the round trip fails. -/
theorem C5_counterexample :
    read_log_record (LogRecord.encode ⟨[], [97], .NORMAL⟩) 0 =
        .error .ReadDataFileEOF ∧
      read_log_record (LogRecord.encode ⟨[], [97], .NORMAL⟩) 0 ≠
        .ok (⟨[], [97], .NORMAL⟩,
          (LogRecord.encode ⟨[], [97], .NORMAL⟩).length) := by
  refine ⟨by decide, by decide⟩

/-- A record whose key and value lengths each fit in a `u32` but whose
header takes 7 bytes. -/
def bigRec6 : LogRecord := ⟨List.replicate 16384 1, List.replicate 16384 2, .NORMAL⟩

/-- C6: the source's header buffer is `1 + length_delimiter_len(u32::MAX)`
= 6 bytes, NOT the `u8 + 2 * max_varint(u32)` (11 bytes) the claim
requires, and for a well-formed record with 16384-byte key and value
(lengths well inside `u32`) the 7-byte header overruns the buffer and the
decoder aborts. -/
theorem C6_header_buffer_too_small :
    max_log_record_header_size = 6 ∧
      1 + varintLen bigRec6.key.length + varintLen bigRec6.value.length = 7 ∧
      bigRec6.key.length < 2 ^ 32 ∧ bigRec6.value.length < 2 ^ 32 ∧
      read_log_record (LogRecord.encode bigRec6) 0 = .error .ModelPanic := by
  have hk : bigRec6.key.length = 16384 := List.length_replicate 16384 1
  have hv : bigRec6.value.length = 16384 := List.length_replicate 16384 2
  refine ⟨by decide, ?_, ?_, ?_, ?_⟩
  · rw [hk, hv]; decide
  · rw [hk]; decide
  · rw [hv]; decide
  · have hover := read_log_record_header_overflow [] [] bigRec6
      (by rw [hk]; decide) (by rw [hk, hv]; decide)
    have h1 : ([] : List Nat) ++ (LogRecord.encode bigRec6 ++ []) =
        LogRecord.encode bigRec6 := by
      rw [List.nil_append, List.append_nil]
    have h2 : List.length ([] : List Nat) = 0 := rfl
    rw [h1, h2] at hover
    exact hover

/-- C8: the rotation boundary of `append_log_record`.  A record ending
exactly at `data_file_size` is written to the current active file with no
rotation and no new sealed entry; a record whose end would exceed it seals
the active file under its id and opens a new active file with id+1, which
receives the record (the model's fsync is a no-op). -/
theorem C8_rotation_boundary (opt : Options) (s : EngineState) (r : LogRecord) :
    (s.active.write_off + r.encode.length = opt.data_file_size →
      Engine.append_log_record opt s r =
        ({ s with
            active := ⟨s.active.file_id, s.active.write_off + r.encode.length,
              s.active.content ++ r.encode⟩
            bytes_write := bwAfter opt s.bytes_write r.encode.length },
          ⟨s.active.file_id, s.active.write_off, r.encode.length⟩)) ∧
    (opt.data_file_size < s.active.write_off + r.encode.length →
      Engine.append_log_record opt s r =
        ({ s with
            older := insertA s.older s.active.file_id
              ⟨s.active.file_id, 0, s.active.content⟩
            active := ⟨s.active.file_id + 1, r.encode.length, r.encode⟩
            bytes_write := bwAfter opt s.bytes_write r.encode.length },
          ⟨s.active.file_id + 1, 0, r.encode.length⟩)) := by
  constructor
  · intro h
    exact append_eq_norot opt s r (by omega)
  · intro h
    exact append_eq_rot opt s r h

/-- The engine state used by the C8 witness: active file 0 with two bytes
already written. -/
def c8S : EngineState := { freshEngine with active := ⟨0, 2, [9, 9]⟩ }

/-- The record used by the C8 witness (encoded size 9). -/
def c8R : LogRecord := ⟨[5], [6], .NORMAL⟩

/-- C8, witness: with `data_file_size = 11` the 9-byte record ends exactly
at the limit and does not rotate; with `data_file_size = 10` it rotates. -/
theorem C8_witness :
    Engine.append_log_record ⟨11, false, 0⟩ c8S c8R =
        ({ c8S with
            active := ⟨c8S.active.file_id, c8S.active.write_off + c8R.encode.length,
              c8S.active.content ++ c8R.encode⟩
            bytes_write := bwAfter ⟨11, false, 0⟩ c8S.bytes_write c8R.encode.length },
          ⟨c8S.active.file_id, c8S.active.write_off, c8R.encode.length⟩) ∧
      Engine.append_log_record ⟨10, false, 0⟩ c8S c8R =
        ({ c8S with
            older := insertA c8S.older c8S.active.file_id
              ⟨c8S.active.file_id, 0, c8S.active.content⟩
            active := ⟨c8S.active.file_id + 1, c8R.encode.length, c8R.encode⟩
            bytes_write := bwAfter ⟨10, false, 0⟩ c8S.bytes_write c8R.encode.length },
          ⟨c8S.active.file_id + 1, 0, c8R.encode.length⟩) :=
  ⟨(C8_rotation_boundary ⟨11, false, 0⟩ c8S c8R).1 (by decide),
   (C8_rotation_boundary ⟨10, false, 0⟩ c8S c8R).2 (by decide)⟩

/-- C7 (amended): for an indexed key, `delete` appends a DELETED tombstone,
removes the directory entry, and increases `reclaim_size` by exactly TWICE
the encoded size of the superseded record (the code adds the old position's
size once via `index.get(..).unwrap()` and once via the value returned by
`index.delete`, never the tombstone's size). -/
theorem C7_delete_reclaim (opt : Options) (s : EngineState) (k : List Nat)
    (pos0 : LogRecodPos) (hk : ¬ k = []) (hmem : lookupA s.index k = some pos0) :
    ∃ s2, Engine.delete opt s k = .ok s2 ∧
      lookupA s2.index k = none ∧
      s2.reclaim_size = s.reclaim_size + 2 * pos0.size ∧
      ∃ q, s2.active.content = q ++ (delRecord k).encode := by
  refine ⟨_, delete_spec opt s k pos0 hk hmem, ?_, ?_, ?_⟩
  · show lookupA (eraseA (Engine.append_log_record opt s (delRecord k)).1.index k) k = none
    exact lookupA_eraseA_self _ _
  · show (Engine.append_log_record opt s (delRecord k)).1.reclaim_size +
      pos0.size + pos0.size = s.reclaim_size + 2 * pos0.size
    rw [append_reclaim]
    omega
  · show ∃ q, (Engine.append_log_record opt s (delRecord k)).1.active.content =
      q ++ (delRecord k).encode
    by_cases h : opt.data_file_size < s.active.write_off + (delRecord k).encode.length
    · rw [append_eq_rot opt s (delRecord k) h]
      exact ⟨[], by simp⟩
    · rw [append_eq_norot opt s (delRecord k) h]
      exact ⟨s.active.content, rfl⟩

/-- C7, witness: deleting `"k1"` from the engine that holds it at position
`(0, 0, 12)`. -/
theorem C7_witness :
    ∃ s2, Engine.delete opt0 c1WitState k1 = .ok s2 ∧
      lookupA s2.index k1 = none ∧
      s2.reclaim_size = c1WitState.reclaim_size +
        2 * (⟨0, 0, 12⟩ : LogRecodPos).size ∧
      ∃ q, s2.active.content = q ++ (delRecord k1).encode :=
  C7_delete_reclaim opt0 c1WitState k1 ⟨0, 0, 12⟩ (by decide) (by decide)

/-- The engine state after `put("k1","v1")` then `delete("k1")`. -/
def c7DelState : EngineState :=
  match Engine.delete opt0 c1WitState k1 with
  | .ok s => s
  | .error _ => freshEngine

/-- C7, counterexample: the superseded record of `"k1"` has encoded size
12 and the tombstone has encoded size 10, so the claim predicts a reclaim
increase of 22; the code increases the counter by 24 (twice the superseded
size). -/
theorem C7_counterexample :
    Engine.delete opt0 c1WitState k1 = .ok c7DelState ∧
      lookupA c1WitState.index k1 = some ⟨0, 0, 12⟩ ∧
      (delRecord k1).encode.length = 10 ∧
      c1WitState.reclaim_size = 0 ∧
      c7DelState.reclaim_size = 24 ∧
      c7DelState.reclaim_size ≠
        c1WitState.reclaim_size + (delRecord k1).encode.length + 12 := by
  refine ⟨by decide, by decide, by decide, by decide, by decide, by decide⟩

/-- C9 (amended): with a non-empty engine, the merge lock free and the
merge-ratio check passed, `merge` fails with NO_ENOUGH_DISK if and only if
`total_size - reclaim_size` is greater than OR EQUAL TO the available free
space — exact equality is rejected, not accepted. -/
theorem C9_merge_disk_check (total reclaim avail : Nat) (hr : reclaim ≤ total)
    (ht : total < 2 ^ 64) :
    mergePrecheck false true true total reclaim avail =
        .error .NoEnoughDiskCapacity ↔ avail ≤ total - reclaim := by
  have hsub : sub64 total reclaim = total - reclaim := by
    rw [sub64]
    omega
  by_cases hc : avail ≤ total - reclaim
  · simp [mergePrecheck, hsub, hc]
  · simp [mergePrecheck, hsub, hc]

/-- C9, witness: the disk check instantiated at total 10, reclaim 4,
available 5. -/
theorem C9_witness :
    mergePrecheck false true true 10 4 5 = .error .NoEnoughDiskCapacity ↔
      5 ≤ 10 - 4 :=
  C9_merge_disk_check 10 4 5 (by decide) (by decide)

/-- C9, counterexample: when `total_size - reclaim_size` exactly equals the
available free space (2 - 1 = 1), the claim says the merge is not rejected
for lack of disk, but the code (`>=`) rejects it with NO_ENOUGH_DISK. -/
theorem C9_counterexample :
    mergePrecheck false true true 2 1 1 = .error .NoEnoughDiskCapacity ∧
      ¬ (1 < 2 - 1) := by
  refine ⟨by decide, by decide⟩

/-- C10: committing a WriteBatch with an empty pending buffer returns `Ok`
and leaves the engine state completely unchanged: nothing is appended, the
sequence number is not incremented, and the index is untouched (the length
check returns before the `fetch_add` and the appends). -/
theorem C10_empty_commit_noop (opt : Options) (wopt : WriteBatchOptions)
    (s : EngineState) : commit opt wopt s [] = .ok s := rfl

/-- C2: after `put("k1","v1")` on a fresh engine (default BTree index) the
key is readable, but re-opening the same directory yields an EMPTY index —
`load_index_from_data_files` is only invoked when `index_type ==
BPlusTree`, so with the in-memory index types nothing is replayed and
`get` fails with `KeyIsNotExist`. -/
theorem C2_reopen_loses_index :
    Engine.put opt0 freshEngine k1 v1 = .ok c1WitState ∧
      Engine.get c1WitState k1 = .ok v1 ∧
      (openEngineMem (dirDataFiles c1WitState)).index = [] ∧
      Engine.get (openEngineMem (dirDataFiles c1WitState)) k1 =
        .error .KeyIsNotExist := by
  refine ⟨by decide, by decide, by decide, by decide⟩

/-- The pending buffer of a one-put batch. -/
def c3Pending : List (List Nat × LogRecord) := [(k1, ⟨k1, v1, .NORMAL⟩)]

/-- Default `WriteBatchOptions`. -/
def wb0 : WriteBatchOptions := ⟨10000, true⟩

/-- The engine state after committing that batch on a fresh engine. -/
def c3Committed : EngineState :=
  match commit opt0 wb0 freshEngine c3Pending with
  | .ok s => s
  | .error _ => freshEngine

/-- C3: committing a batch with sequence number 1 appends the data record
with key `varint(1) ++ "k1"`, but the final TXN_FINISHED record carries the
PLAIN key `"txn-fin"` with no sequence-number prefix.  Replay then decodes
a bogus sequence number 116 (the byte `'t'`) from that key, finds no
buffered records for it, and hits the `unwrap` panic — so the committed
batch is never made visible by the TXN_FINISHED path after recovery. -/
theorem C3_txn_fin_not_prefixed :
    commit opt0 wb0 freshEngine c3Pending = .ok c3Committed ∧
      c3Committed.active.content =
        (LogRecord.encode ⟨log_record_with_seq k1 1, v1, .NORMAL⟩) ++
          (LogRecord.encode ⟨TXN_FIN_KEY, [], .TXNFINSHED⟩) ∧
      TXN_FIN_KEY ≠ log_record_with_seq TXN_FIN_KEY 1 ∧
      parse_log_record_key TXN_FIN_KEY = some ([120, 110, 45, 102, 105, 110], 116) ∧
      load_index_from_data_files (dirDataFiles c3Committed) = .error .ModelPanic := by
  refine ⟨by decide, by decide, by decide, by decide, by decide⟩

/-- C4: splitting a two-file directory leaves the sealed map EMPTY (file 0
is dropped entirely, not sealed), and with three files the file with the
SMALLEST id becomes active while the two larger ids are sealed — the
opposite of the claim for every n ≥ 2. -/
theorem C4_open_split_wrong :
    openSplit (load_data_files [(0, [1]), (1, [2])]) = ([], ⟨1, 0, [2]⟩) ∧
      lookupA (openSplit (load_data_files [(0, [1]), (1, [2])])).1 0 = none ∧
      (openSplit (load_data_files [(0, [1]), (1, [2]), (2, [3])])).2.file_id = 0 ∧
      (openSplit (load_data_files [(0, [1]), (1, [2]), (2, [3])])).1 =
        [(2, ⟨2, 0, [3]⟩), (1, ⟨1, 0, [2]⟩)] := by
  refine ⟨by decide, by decide, by decide, by decide⟩

end YDB
